import Mathlib

set_option maxRecDepth 8000

/-!
Shallow embedding of the dotbeam visual data-transfer protocol
(satindergrewal/dotbeam): the Go frame codec (`dotbeam.go`, `layout.go`,
encoder, `decoder.go`) and the browser-side consensus decoder and color
classifier (`web/static/scanner.js`).

Modelling conventions: machine bytes and dot values are `Nat` with explicit
bounds and `% 2^w` where the code truncates; JavaScript floating-point
arithmetic over exact decimal inputs is modelled as `ℚ` (and as `ℝ` for the
transform-drift geometry, which involves square roots and π); fallible
operations return `Option`.
-/

section BitCodec

variable {α : Type*}

/-- MSB-first bits of the low `w` bits of `v`: the loop
`for b := bitsPerDot - 1; b >= 0; b-- { ... (value >> b) & 1 }` appearing in
`Decoder.dotsToBytes` (decoder.go), `Encoder.bytesToDots`'s inverse and
`Decoder.prototype._dotsToBytes` (scanner.js). -/
def natToBits : Nat → Nat → List Nat
  | 0, _ => []
  | w+1, v => ((v >>> w) % 2) :: natToBits w v

/-- MSB-first accumulation `val = (val << 1) | bit` used when packing a group
of bits into a byte or a dot value. -/
def bitsToNat (l : List Nat) : Nat := l.foldl (fun a b => 2 * a + b) 0

/-- Fuel-driven split of a list into its consecutive complete groups of `w`
elements, dropping any incomplete trailing group: the loop shape
`for bitStart + bitsPerDot <= len(bits)` / `for b + 7 < bits.length` common to
both codecs.  `chunks` instantiates the fuel with the list length. -/
def chunksGo (w : Nat) : Nat → List α → List (List α)
  | 0, _ => []
  | fuel+1, l =>
    if 0 < w ∧ w ≤ l.length then l.take w :: chunksGo w fuel (l.drop w) else []

def chunks (w : Nat) (l : List α) : List (List α) := chunksGo w l.length l

theorem natToBits_length (w v : Nat) : (natToBits w v).length = w := by
  induction w generalizing v with
  | zero => rfl
  | succ w ih => simp [natToBits, ih]

theorem natToBits_le_one (w v : Nat) : ∀ b ∈ natToBits w v, b ≤ 1 := by
  induction w generalizing v with
  | zero => simp [natToBits]
  | succ w ih =>
    intro b hb
    simp only [natToBits, List.mem_cons] at hb
    rcases hb with h | h
    · subst h; omega
    · exact ih v b h

theorem foldl_bits (l : List Nat) : ∀ a : Nat,
    l.foldl (fun a b => 2 * a + b) a = a * 2 ^ l.length + bitsToNat l := by
  induction l with
  | nil => intro a; simp [bitsToNat]
  | cons x l ih =>
    intro a
    have h2 : bitsToNat (x :: l) = x * 2 ^ l.length + bitsToNat l := by
      show l.foldl _ (2 * 0 + x) = _
      rw [ih (2 * 0 + x)]
      ring_nf
    show l.foldl _ (2 * a + x) = a * 2 ^ (x :: l).length + bitsToNat (x :: l)
    rw [ih (2 * a + x), h2, List.length_cons, pow_succ]
    ring

theorem bitsToNat_cons (x : Nat) (l : List Nat) :
    bitsToNat (x :: l) = x * 2 ^ l.length + bitsToNat l := by
  show l.foldl _ (2 * 0 + x) = _
  rw [foldl_bits l (2 * 0 + x)]
  ring_nf

theorem bitsToNat_lt (l : List Nat) (h : ∀ b ∈ l, b ≤ 1) :
    bitsToNat l < 2 ^ l.length := by
  induction l with
  | nil => simp [bitsToNat]
  | cons x l ih =>
    have hx := h x (by simp)
    have hl := ih fun b hb => h b (by simp [hb])
    rw [bitsToNat_cons, List.length_cons, pow_succ]
    have hxN : x * 2 ^ l.length ≤ 2 ^ l.length := by
      calc x * 2 ^ l.length ≤ 1 * 2 ^ l.length := Nat.mul_le_mul_right _ hx
        _ = 2 ^ l.length := one_mul _
    omega

theorem bitsToNat_natToBits (w v : Nat) : bitsToNat (natToBits w v) = v % 2 ^ w := by
  induction w with
  | zero => simp [natToBits, bitsToNat, Nat.mod_one]
  | succ w ih =>
    rw [natToBits, bitsToNat_cons, natToBits_length, ih, Nat.shiftRight_eq_div_pow,
      pow_succ, Nat.mod_mul]
    ring

theorem natToBits_add_mul (w v c : Nat) :
    natToBits w (v + c * 2 ^ w) = natToBits w v := by
  induction w generalizing c with
  | zero => rfl
  | succ w ih =>
    have hrw : v + c * 2 ^ (w + 1) = v + (2 * c) * 2 ^ w := by rw [pow_succ]; ring
    rw [natToBits, natToBits, hrw]
    congr 1
    · rw [Nat.shiftRight_eq_div_pow, Nat.shiftRight_eq_div_pow,
        Nat.add_mul_div_right v (2 * c) (Nat.pos_pow_of_pos w (by norm_num))]
      omega
    · exact ih (2 * c)

theorem natToBits_bitsToNat (l : List Nat) (h : ∀ b ∈ l, b ≤ 1) :
    natToBits l.length (bitsToNat l) = l := by
  induction l with
  | nil => rfl
  | cons x l ih =>
    have hx := h x (by simp)
    have hl : ∀ b ∈ l, b ≤ 1 := fun b hb => h b (by simp [hb])
    have hlt := bitsToNat_lt l hl
    rw [bitsToNat_cons, List.length_cons, natToBits]
    congr 1
    · rw [Nat.shiftRight_eq_div_pow]
      have hdiv : (x * 2 ^ l.length + bitsToNat l) / 2 ^ l.length = x := by
        rw [show x * 2 ^ l.length + bitsToNat l = bitsToNat l + x * 2 ^ l.length by ring,
          Nat.add_mul_div_right _ x (Nat.pos_pow_of_pos l.length (by norm_num)),
          Nat.div_eq_of_lt hlt]
        omega
      rw [hdiv]
      omega
    · rw [show x * 2 ^ l.length + bitsToNat l = bitsToNat l + x * 2 ^ l.length by ring,
        natToBits_add_mul, ih hl]

theorem chunksGo_congr (w : Nat) (f₁ : Nat) : ∀ (f₂ : Nat) (l : List α),
    l.length ≤ f₁ → l.length ≤ f₂ → chunksGo w f₁ l = chunksGo w f₂ l := by
  induction f₁ with
  | zero =>
    intro f₂ l h1 _
    have : l = [] := List.length_eq_zero.mp (by omega)
    subst this
    cases f₂ with
    | zero => rfl
    | succ f => simp [chunksGo]; omega
  | succ f₁ ih =>
    intro f₂ l h1 h2
    cases f₂ with
    | zero =>
      have : l = [] := List.length_eq_zero.mp (by omega)
      subst this
      simp [chunksGo]
      omega
    | succ f =>
      simp only [chunksGo]
      by_cases hc : 0 < w ∧ w ≤ l.length
      · rw [if_pos hc, if_pos hc]
        have hdrop : (l.drop w).length = l.length - w := List.length_drop w l
        rw [ih f (l.drop w) (by omega) (by omega)]
      · rw [if_neg hc, if_neg hc]

theorem chunks_nil_of_short (w : Nat) (l : List α) (h : l.length < w ∨ w = 0) :
    chunks w l = [] := by
  unfold chunks
  cases hl : l.length with
  | zero => rfl
  | succ n =>
    simp only [chunksGo]
    rw [if_neg]
    rintro ⟨h1, h2⟩
    omega

theorem chunks_cons (w : Nat) (hw : 0 < w) (a l : List α) (ha : a.length = w) :
    chunks w (a ++ l) = a :: chunks w l := by
  unfold chunks
  have hlen : (a ++ l).length = w + l.length := by simp [ha]
  rw [hlen]
  obtain ⟨w', rfl⟩ : ∃ w', w = w' + 1 := ⟨w - 1, by omega⟩
  rw [show w' + 1 + l.length = (w' + l.length) + 1 by omega]
  simp only [chunksGo]
  rw [if_pos ⟨hw, by simp [ha]⟩]
  congr 1
  · exact List.take_left' ha
  · rw [List.drop_left' ha]
    exact chunksGo_congr _ _ _ _ (by omega) (le_refl _)

theorem chunksGo_length (w : Nat) (hw : 0 < w) : ∀ (fuel : Nat) (l : List α),
    l.length ≤ fuel → (chunksGo w fuel l).length = l.length / w := by
  intro fuel
  induction fuel with
  | zero =>
    intro l h
    have : l = [] := List.length_eq_zero.mp (by omega)
    subst this
    simp [chunksGo]
  | succ f ih =>
    intro l h
    simp only [chunksGo]
    by_cases hc : 0 < w ∧ w ≤ l.length
    · rw [if_pos hc, List.length_cons, ih (l.drop w) (by simp; omega)]
      rw [List.length_drop, Nat.div_eq_sub_div hw hc.2]
    · rw [if_neg hc]
      simp only [List.length_nil]
      rw [eq_comm, Nat.div_eq_of_lt (by omega)]

theorem chunks_length (w : Nat) (hw : 0 < w) (l : List α) :
    (chunks w l).length = l.length / w :=
  chunksGo_length w hw l.length l (le_refl _)

theorem chunksGo_forall {P : α → Prop} (w : Nat) : ∀ (fuel : Nat) (l : List α),
    l.length ≤ fuel → (∀ x ∈ l, P x) →
    ∀ c ∈ chunksGo w fuel l, c.length = w ∧ ∀ x ∈ c, P x := by
  intro fuel
  induction fuel with
  | zero =>
    intro l h _
    have : l = [] := List.length_eq_zero.mp (by omega)
    subst this
    simp [chunksGo]
  | succ f ih =>
    intro l h hP c hc
    simp only [chunksGo] at hc
    by_cases hcond : 0 < w ∧ w ≤ l.length
    · rw [if_pos hcond] at hc
      rcases List.mem_cons.mp hc with h1 | h1
      · subst h1
        exact ⟨List.length_take_of_le hcond.2, fun x hx => hP x (List.take_subset _ _ hx)⟩
      · exact ih (l.drop w) (by simp; omega) (fun x hx => hP x (List.drop_subset _ _ hx)) c h1
    · rw [if_neg hcond] at hc
      simp at hc

theorem chunks_forall {P : α → Prop} (w : Nat) (l : List α) (hP : ∀ x ∈ l, P x) :
    ∀ c ∈ chunks w l, c.length = w ∧ ∀ x ∈ c, P x :=
  chunksGo_forall w l.length l (le_refl _) hP

theorem chunksGo_take_flatten (w : Nat) (hw : 0 < w) : ∀ (fuel : Nat) (l : List α) (k : Nat),
    l.length ≤ fuel →
    ((chunksGo w fuel l).take k).flatten = l.take (w * min k (l.length / w)) := by
  intro fuel
  induction fuel with
  | zero =>
    intro l k h
    have : l = [] := List.length_eq_zero.mp (by omega)
    subst this
    simp [chunksGo]
  | succ f ih =>
    intro l k h
    simp only [chunksGo]
    by_cases hc : w ≤ l.length
    · rw [if_pos ⟨hw, hc⟩]
      cases k with
      | zero => simp
      | succ k =>
        rw [List.take_succ_cons, List.flatten_cons]
        rw [ih (l.drop w) k (by simp; omega)]
        rw [List.length_drop, Nat.div_eq_sub_div hw hc, Nat.succ_min_succ,
          Nat.mul_succ, Nat.add_comm (w * min k ((l.length - w) / w)) w,
          List.take_add]
    · rw [if_neg (by intro hcc; exact hc hcc.2)]
      rw [Nat.div_eq_of_lt (by omega)]
      simp

theorem chunks_take_flatten (w : Nat) (hw : 0 < w) (l : List α) (k : Nat) :
    ((chunks w l).take k).flatten = l.take (w * min k (l.length / w)) :=
  chunksGo_take_flatten w hw l.length l k (le_refl _)

theorem chunks_flatten_append (w : Nat) (hw : 0 < w) (gs : List (List α)) (R : List α)
    (hg : ∀ g ∈ gs, g.length = w) (hR : R.length < w) :
    chunks w (gs.flatten ++ R) = gs := by
  induction gs with
  | nil => simpa using chunks_nil_of_short w R (Or.inl hR)
  | cons g gs ih =>
    have hgw := hg g (by simp)
    rw [List.flatten_cons, List.append_assoc, chunks_cons w hw g _ hgw,
      ih fun g' hg' => hg g' (by simp [hg'])]

end BitCodec

/- ### Go core (`dotbeam.go`, encoder, `decoder.go`)

Dot positions (`layout.go`) never influence encoded or decoded values — the
encoder walks the rings in layout order and assigns consecutive bit groups —
so a dot is modelled by its `Value` alone and a frame's dot list is a
`List Nat` in ring order. -/

/-- `Config` (dotbeam.go).  `FPS` and `UseFountain` never affect the codec and
are omitted. -/
structure Config where
  Rings : Nat
  BitsPerDot : Nat
deriving DecidableEq

/-- `Config.TotalDots`: `for ring := 1; ring <= c.Rings; ring++ { total += ring * 6 }`. -/
def Config.TotalDots (c : Config) : Nat :=
  (List.range c.Rings).foldl (fun total i => total + (i + 1) * 6) 0

/-- `Config.BitsPerFrame`. -/
def Config.BitsPerFrame (c : Config) : Nat := c.TotalDots * c.BitsPerDot

/-- `Config.BytesPerFrame`: `(c.BitsPerFrame() / 8) - 2` on Go ints.  With
truncated `Nat` subtraction the result is `0` exactly when the Go value is
`≤ 0`, which is the case `Encoder.Encode` guards against. -/
def Config.BytesPerFrame (c : Config) : Nat := c.BitsPerFrame / 8 - 2

/-- `DefaultConfig()`: 4 rings, 3 bits per dot. -/
def DefaultConfig : Config := ⟨4, 3⟩

/-- `Frame` (dotbeam.go) with dots reduced to their values in ring order. -/
structure Frame where
  Index : Nat
  Total : Nat
  Dots : List Nat
  Payload : List Nat
deriving DecidableEq

/-- `bytesToBits` (encoder): MSB-first bits of every byte. -/
def bytesToBits (data : List Nat) : List Nat := (data.map (natToBits 8)).flatten

/-- Zero padding `if len(frameBytes) < totalBytes { padded := make([]byte, totalBytes); copy(...) }`. -/
def padTo (l : List Nat) (n : Nat) : List Nat := l ++ List.replicate (n - l.length) 0

/-- `Encoder.bytesToDots`: walk ring positions in order, packing consecutive
`BitsPerDot`-wide bit groups; stop when positions or complete bit groups run
out. -/
def Encoder.bytesToDots (c : Config) (data : List Nat) : List Nat :=
  ((chunks c.BitsPerDot (bytesToBits data)).map bitsToNat).take c.TotalDots

/-- `Encoder.Encode` (encoder source): split `data` into
`bytesPerFrame`-sized chunks, cap the frame count at 255, build
`[index, total, payload...]` zero-padded to `⌈BitsPerFrame/8⌉` bytes and
convert to dots.  `byte(i)` and `byte(totalFrames)` never truncate because
`i < totalFrames ≤ 255`. -/
def Encoder.Encode (c : Config) (data : List Nat) : List Frame :=
  let bytesPerFrame := c.BytesPerFrame
  if bytesPerFrame = 0 then []
  else
    let totalFrames := min ((data.length + bytesPerFrame - 1) / bytesPerFrame) 255
    (List.range totalFrames).map fun i =>
      let chunk := (data.drop (i * bytesPerFrame)).take bytesPerFrame
      let frameBytes := padTo (i :: totalFrames :: chunk) ((c.BitsPerFrame + 7) / 8)
      { Index := i, Total := totalFrames, Dots := Encoder.bytesToDots c frameBytes,
        Payload := chunk }

/-- `Decoder` state (decoder.go): `frames` is the `map[int][]byte` as an
association list (keys are inserted at most once, so lookup is exact map
semantics). -/
structure Decoder where
  frames : List (Nat × List Nat)
  total : Nat
  received : Nat
deriving DecidableEq

/-- `NewDecoder`. -/
def Decoder.new : Decoder := ⟨[], 0, 0⟩

/-- `Decoder.dotsToBytes`: bits of every dot value MSB-first, repacked into
complete bytes (`numBytes := len(bits) / 8`). -/
def Decoder.dotsToBytes (c : Config) (dots : List Nat) : List Nat :=
  (chunks 8 ((dots.map (natToBits c.BitsPerDot)).flatten)).map bitsToNat

/-- `Decoder.AddFrame`.  The `Option Bool` result is `none` for
`ErrInvalidFrame` (state unchanged) and `some done` otherwise; Go assigns
`d.total = frameTotal` unconditionally, before the duplicate-index check. -/
def Decoder.addFrame (c : Config) (d : Decoder) (dots : List Nat) : Decoder × Option Bool :=
  if dots.length = 0 then (d, none)
  else
    match Decoder.dotsToBytes c dots with
    | frameIndex :: frameTotal :: payload =>
      if frameTotal = 0 then (d, none)
      else
        let d' :=
          if (d.frames.lookup frameIndex).isSome then
            { d with total := frameTotal }
          else
            { frames := (frameIndex, payload) :: d.frames, total := frameTotal,
              received := d.received + 1 }
        (d', some (decide (d'.total ≤ d'.received)))
    | _ => (d, none)

/-- `Decoder.Data`: `none` stands for `ErrIncompleteData`; otherwise the
payloads for indices `0..total-1` concatenated in order. -/
def Decoder.data (d : Decoder) : Option (List Nat) :=
  if d.received < d.total then none
  else ((List.range d.total).mapM fun i => d.frames.lookup i).map List.flatten

/- ### Browser consensus decoder (`web/static/scanner.js`) -/

/-- `Decoder.prototype._dotsToBytes` (scanner.js): 3 bits per dot value
(`dotValues[i] & 0x07`, MSB first), packed into complete bytes
(`for b; b + 7 < bits.length; b += 8`). -/
def jsDotsToBytes (dotValues : List Nat) : List Nat :=
  (chunks 8 ((dotValues.map fun v => natToBits 3 (v % 8)).flatten)).map bitsToNat

/-- The count lookup `this._ftCounts[k] || 0` on the tally object. -/
def getCount (counts : List (Nat × Nat)) (k : Nat) : Nat := (counts.lookup k).getD 0

/-- `this._ftCounts[totalFrames] = (this._ftCounts[totalFrames] || 0) + 1`. -/
def bumpCount (counts : List (Nat × Nat)) (k : Nat) : List (Nat × Nat) :=
  match counts with
  | [] => [(k, 1)]
  | (k', v) :: rest => if k' = k then (k', v + 1) :: rest else (k', v) :: bumpCount rest k

/-- Keyed store update `this._votes[i] = ...` / `this._frames[i] = ...`. -/
def setAssoc {β : Type*} (l : List (Nat × β)) (k : Nat) (v : β) : List (Nat × β) :=
  match l with
  | [] => [(k, v)]
  | (k', v') :: rest => if k' = k then (k, v) :: rest else (k', v') :: setAssoc rest k v

/-- The plurality scan `for (ftKey in this._ftCounts) if (counts[ftKey] > bestCount)`.
JavaScript iterates integer-like object keys in ascending numeric order, so the
scan visits present keys ascending with a strict `>`; scanning all keys
`0..200` (absent keys count 0, and every present key satisfies `1 ≤ count`)
selects the same winner.  Keys are always in `1..200` by the sanity checks. -/
def ftPlurality (counts : List (Nat × Nat)) : Option Nat × Nat :=
  (List.range 201).foldl
    (fun best k => if best.2 < getCount counts k then (some k, getCount counts k) else best)
    (none, 0)

/-- `MIN_VOTES`. -/
def MIN_VOTES : Nat := 5

/-- `FT_SETTLE_MIN`. -/
def FT_SETTLE_MIN : Nat := 10

/-- `Decoder.prototype._majorityVote`: per dot position, the value `0..7` with
the most occurrences of `captures[c][d] & 7` (ties to the smallest value; an
out-of-range read is `undefined`, and `undefined & 7` is `0`, hence
`getD d 0`). -/
def majorityVote (captures : List (List Nat)) : List Nat :=
  match captures with
  | [] => []
  | c0 :: _ =>
    (List.range c0.length).map fun d =>
      let count := fun v => captures.countP fun c => c.getD d 0 % 8 == v
      (List.range 8).foldl (fun best v => if count best < count v then v else best) 0

/-- The consensus decoder state (`function Decoder()` in scanner.js). -/
structure JSDecoder where
  votes : List (Nat × List (List Nat))
  frames : List (Nat × List Nat)
  totalFrames : Option Nat
  received : Nat
  ftCounts : List (Nat × Nat)
  ftTotal : Nat
deriving DecidableEq

def JSDecoder.new : JSDecoder := ⟨[], [], none, 0, [], 0⟩

/-- The vote-accumulation tail of `Decoder.prototype.addFrame`, entered once
the capture passed the sanity checks, the tally was updated and its
`totalFrames` matches the locked value `t`.  If the voted header disagrees
with the bucket key the bucket is cleared; a `votedBytes` shorter than two
bytes reads as `undefined` in JS, which also fails the `===` comparisons and
clears the bucket. -/
def jsAccumulate (d : JSDecoder) (t frameIndex : Nat) (dotValues : List Nat) :
    JSDecoder × Bool :=
  let bucket := ((d.votes.lookup frameIndex).getD []) ++ [dotValues]
  let d2 := { d with votes := setAssoc d.votes frameIndex bucket }
  if MIN_VOTES ≤ bucket.length then
    match jsDotsToBytes (majorityVote bucket) with
    | votedFi :: votedFt :: votedRest =>
      if votedFi ≠ frameIndex ∨ votedFt ≠ t then
        ({ d2 with votes := setAssoc d2.votes frameIndex [] }, false)
      else
        let payload := votedRest
        let d3 := { d2 with
          received := if (d2.frames.lookup frameIndex).isSome then d2.received
                      else d2.received + 1,
          frames := setAssoc d2.frames frameIndex payload }
        (d3, decide (t ≤ d3.received))
    | _ => ({ d2 with votes := setAssoc d2.votes frameIndex [] }, false)
  else (d2, decide (t ≤ d2.received))

/-- `Decoder.prototype.addFrame` (scanner.js).  Returns the new state and the
`complete` flag of the tick result.  The float comparison
`bestCount < this._ftTotal * 0.3` is exact at these magnitudes and is written
`bestCount * 10 < ftTotal * 3`. -/
def jsAddFrame (d : JSDecoder) (dotValues : List Nat) : JSDecoder × Bool :=
  match jsDotsToBytes dotValues with
  | frameIndex :: totalFrames :: _ =>
    if totalFrames = 0 ∨ 200 < totalFrames then (d, false)
    else if totalFrames ≤ frameIndex then (d, false)
    else
      let d1 := { d with ftCounts := bumpCount d.ftCounts totalFrames,
                         ftTotal := d.ftTotal + 1 }
      match d.totalFrames with
      | none =>
        if d1.ftTotal < FT_SETTLE_MIN then (d1, false)
        else
          let best := ftPlurality d1.ftCounts
          if best.2 * 10 < d1.ftTotal * 3 then (d1, false)
          else
            let d1' := { d1 with totalFrames := best.1 }
            match best.1 with
            | some t =>
              if totalFrames ≠ t then (d1', false)
              else jsAccumulate d1' t frameIndex dotValues
            | none => (d1', false)
      | some t =>
        if totalFrames ≠ t then (d1, false)
        else jsAccumulate d1 t frameIndex dotValues
  | _ => (d, false)

/- ### Palette classifier (`matchColor`, `rgbToHue` in scanner.js) -/

/-- JavaScript truncation toward zero, as performed by the `%` remainder
operator on the quotient. -/
def jsTrunc (q : ℚ) : ℤ := if q < 0 then -⌊-q⌋ else ⌊q⌋

/-- The JavaScript remainder `a % n` (sign of the dividend). -/
def jsRem (a n : ℚ) : ℚ := a - n * jsTrunc (a / n)

def max3 (r g b : Nat) : Nat := max r (max g b)

def min3 (r g b : Nat) : Nat := min r (min g b)

/-- The hue computation of `rgbToHue` without its near-achromatic early
return: the branch on which channel attains the maximum, `((g-b)/delta) % 6`
on the red branch, then `*60` and `+360` if negative. -/
def hueAngle (r g b : Nat) : ℚ :=
  let m := max3 r g b
  let delta : ℚ := (m : ℚ) - (min3 r g b : ℚ)
  let base : ℚ :=
    if m = r then jsRem (((g : ℚ) - (b : ℚ)) / delta) 6
    else if m = g then ((b : ℚ) - (r : ℚ)) / delta + 2
    else ((r : ℚ) - (g : ℚ)) / delta + 4
  let hue := base * 60
  if hue < 0 then hue + 360 else hue

/-- `rgbToHue` (scanner.js): `-1` when `max - min < 10` (near-achromatic). -/
def rgbToHue (r g b : Nat) : ℚ :=
  if (max3 r g b : ℚ) - (min3 r g b : ℚ) < 10 then -1 else hueAngle r g b

/-- `hueDist`: angular distance between two hues. -/
def hueDist (h1 h2 : ℚ) : ℚ := if |h1 - h2| > 180 then 360 - |h1 - h2| else |h1 - h2|

/-- `colorDistSq`: squared Euclidean RGB distance. -/
def colorDistSq (r1 g1 b1 : Nat) (p : Nat × Nat × Nat) : ℤ :=
  ((r1 : ℤ) - p.1) ^ 2 + ((g1 : ℤ) - p.2.1) ^ 2 + ((b1 : ℤ) - p.2.2) ^ 2

/-- `DotbeamCore.colors` = the 8-entry palette of `dotbeam.go` /
`dotbeam-core.js`. -/
def palette : List (Nat × Nat × Nat) :=
  [(0xFF, 0x44, 0x44), (0xFF, 0x8C, 0x00), (0xFF, 0xD7, 0x00), (0x44, 0xFF, 0x44),
   (0x00, 0xCE, 0xD1), (0x44, 0x88, 0xFF), (0xAA, 0x44, 0xFF), (0xFF, 0x44, 0xFF)]

/-- `paletteHues`: precomputed `rgbToHue` of every palette entry. -/
def paletteHues : List ℚ := palette.map fun p => rgbToHue p.1 p.2.1 p.2.2

/-- The strict-minimum scan `if (d < bestDist) { bestDist = d; bestIdx = i }`
starting from `bestIdx = 0, bestDist = Infinity`: the first element always
replaces `Infinity`, so scan the tail against the head. -/
def scanBestAux {β : Type*} [LinearOrder β] : List β → Nat → Nat → β → Nat
  | [], _, best, _ => best
  | d :: rest, i, best, bestDist =>
    if d < bestDist then scanBestAux rest (i + 1) i d
    else scanBestAux rest (i + 1) best bestDist

def scanBest {β : Type*} [LinearOrder β] : List β → Nat
  | [] => 0
  | d :: rest => scanBestAux rest 1 0 d

/-- `matchColor` (scanner.js): hue matching when the sample is chromatic
enough (`sat > 0.15 && max > 30` and a defined hue), otherwise nearest
palette entry by squared RGB distance. -/
def matchColor (r g b : Nat) : Nat :=
  let m := max3 r g b
  let sat : ℚ := if m = 0 then 0 else ((m : ℚ) - (min3 r g b : ℚ)) / (m : ℚ)
  if 0.15 < sat ∧ 30 < m then
    let sampleHue := rgbToHue r g b
    if 0 ≤ sampleHue then scanBest (paletteHues.map fun ph => hueDist sampleHue ph)
    else scanBest (palette.map fun p => colorDistSq r g b p)
  else scanBest (palette.map fun p => colorDistSq r g b p)

/- ### Ring geometry (`ringRadius` in layout.go and the JS layout) -/

/-- `ringRadius(ring, totalRings)`: 0.40 for a single ring, otherwise linear
interpolation of `0.22 .. 0.70` over `(ring-1)/(totalRings-1)`.  Go computes
`float64(ring-1)` on ints with `ring ≥ 1`, matching the cast-then-subtract
below on every reachable input. -/
def ringRadius (ring totalRings : Nat) : ℚ :=
  if totalRings = 1 then 0.4
  else 0.22 + (0.70 - 0.22) * ((ring : ℚ) - 1) / ((totalRings : ℚ) - 1)

/- ### Transform drift gate (`DotbeamScanner.prototype._scan`, scanner.js) -/

/-- The cached/fresh camera transform: center, scale, rotation (radians). -/
structure Transform where
  cx : ℝ
  cy : ℝ
  scale : ℝ
  rotation : ℝ

/-- `centerDrift = sqrt(cdx*cdx + cdy*cdy)`. -/
noncomputable def centerDrift (cached fresh : Transform) : ℝ :=
  Real.sqrt ((fresh.cx - cached.cx) ^ 2 + (fresh.cy - cached.cy) ^ 2)

/-- The acceptance test of `_scan`: the fresh transform agrees with the cache
within `centerDrift < scale*0.15 && scaleDrift < scale*0.20 && rotDrift <
15°`. -/
def transformDriftOK (cached fresh : Transform) : Prop :=
  centerDrift cached fresh < cached.scale * 0.15 ∧
  |fresh.scale - cached.scale| < cached.scale * 0.20 ∧
  |fresh.rotation - cached.rotation| < 15 * Real.pi / 180

/-- The cache update of `_scan` when both a cached and a fresh transform
exist: the fresh transform replaces the cache iff it passes the drift gate,
otherwise the cache is retained. -/
noncomputable def scanCacheUpdate (cached fresh : Transform) : Transform :=
  open Classical in if transformDriftOK cached fresh then fresh else cached

/- ### General helper lemmas -/

theorem lookup_eq_none_of {β : Type*} (l : List (Nat × β)) (a : Nat)
    (h : ∀ p ∈ l, p.1 ≠ a) : l.lookup a = none := by
  induction l with
  | nil => rfl
  | cons p rest ih =>
    have hp := h p (by simp)
    simp only [List.lookup]
    have hbeq : (a == p.1) = false := by simp; omega
    rw [hbeq]
    exact ih fun q hq => h q (by simp [hq])

theorem lookup_setAssoc {β : Type*} (l : List (Nat × β)) (k : Nat) (v : β) :
    (setAssoc l k v).lookup k = some v := by
  induction l with
  | nil => simp [setAssoc, List.lookup]
  | cons p rest ih =>
    obtain ⟨k', v'⟩ := p
    by_cases hk : k' = k
    · subst hk
      simp [setAssoc, List.lookup]
    · simp only [setAssoc, if_neg hk, List.lookup]
      have hbeq : (k == k') = false := by simp; omega
      rw [hbeq]
      exact ih

theorem setAssoc_setAssoc {β : Type*} (l : List (Nat × β)) (k : Nat) (v v' : β) :
    setAssoc (setAssoc l k v) k v' = setAssoc l k v' := by
  induction l with
  | nil => simp [setAssoc]
  | cons p rest ih =>
    obtain ⟨k'', v''⟩ := p
    by_cases hk : k'' = k
    · subst hk
      simp [setAssoc]
    · simp only [setAssoc, if_neg hk, ih]

theorem mapM_eq_some_map {β : Type*} (l : List Nat) (f : Nat → Option β) (g : Nat → β)
    (h : ∀ i ∈ l, f i = some (g i)) : l.mapM f = some (l.map g) := by
  induction l with
  | nil => rfl
  | cons a rest ih =>
    rw [List.mapM_cons, h a (by simp), ih fun i hi => h i (by simp [hi])]
    rfl

theorem countP_disjoint_le {β : Type*} (l : List β) (p q : β → Bool)
    (h : ∀ x ∈ l, ¬(p x ∧ q x)) : l.countP p + l.countP q ≤ l.length := by
  induction l with
  | nil => simp
  | cons a rest ih =>
    have ha := h a (by simp)
    have hr := ih fun x hx => h x (by simp [hx])
    rw [List.countP_cons, List.countP_cons]
    by_cases hp : p a <;> by_cases hq : q a <;> simp_all <;> omega

theorem lookup_rev_range {β : Type*} (g : Nat → β) (k i : Nat) :
    (((List.range k).map fun j => (j, g j)).reverse).lookup i =
      if i < k then some (g i) else none := by
  induction k with
  | zero => simp
  | succ k ih =>
    rw [List.range_succ, List.map_append, List.reverse_append]
    simp only [List.map_cons, List.map_nil, List.reverse_cons, List.reverse_nil,
      List.nil_append, List.cons_append, List.nil_append, List.lookup]
    by_cases hik : i = k
    · subst hik
      simp [if_pos (Nat.lt_succ_self i)]
    · have hbeq : (i == k) = false := by simp; omega
      rw [hbeq]
      simp only [List.append_eq, List.nil_append]
      rw [ih]
      by_cases hlt : i < k
      · rw [if_pos hlt, if_pos (by omega)]
      · rw [if_neg hlt, if_neg (by omega)]

/- ### Claim C8 — ring radius interpolation -/

/-- C8 counterexample: with exactly one ring, `ringRadius` returns 0.40 in
both the Go and the JS layout code, not the midpoint 0.46 of 0.22 and 0.70
stated by the claim. -/
theorem c8_single_ring_not_midpoint :
    ringRadius 1 1 = 0.40 ∧ ringRadius 1 1 ≠ (0.22 + 0.70) / 2 := by
  constructor <;> norm_num [ringRadius]

/-- C8 (amended): for every configuration with at least two rings the ring
radii are linearly interpolated (evenly spaced) from 0.22 at ring 1 to 0.70
at the last ring; for a configuration with exactly one ring the radius is
0.40, not the midpoint of 0.22 and 0.70. -/
theorem c8_ring_radius_interpolation (totalRings : Nat) (h2 : 2 ≤ totalRings) :
    ringRadius 1 totalRings = 0.22 ∧
    ringRadius totalRings totalRings = 0.70 ∧
    (∀ r : Nat, 1 ≤ r → r + 1 ≤ totalRings →
      ringRadius (r + 1) totalRings - ringRadius r totalRings =
        (0.70 - 0.22) / ((totalRings : ℚ) - 1)) ∧
    ringRadius 1 1 = 0.40 := by
  have hne : totalRings ≠ 1 := by omega
  have hcast : (2 : ℚ) ≤ (totalRings : ℚ) := by exact_mod_cast h2
  have hq : ((totalRings : ℚ) - 1) ≠ 0 := by intro h; nlinarith
  refine ⟨?_, ?_, ?_, ?_⟩
  · rw [ringRadius, if_neg hne]
    norm_num
  · rw [ringRadius, if_neg hne]
    field_simp
  · intro r h1 hr
    rw [ringRadius, if_neg hne, ringRadius, if_neg hne]
    have : ((r : ℚ) + 1) - 1 = ((r : ℚ) - 1) + 1 := by ring
    push_cast
    field_simp
    ring
  · norm_num [ringRadius]

/-- Concrete instance of `c8_ring_radius_interpolation` at the default
four-ring configuration (radii 0.22, 0.38, 0.54, 0.70). -/
theorem c8_ring_radius_interpolation_witness :
    ringRadius 1 4 = 0.22 ∧ ringRadius 4 4 = 0.70 ∧
    ringRadius 3 4 - ringRadius 2 4 = (0.70 - 0.22) / ((4 : ℚ) - 1) ∧
    ringRadius 1 1 = 0.40 := by
  obtain ⟨h1, h2, h3, h4⟩ := c8_ring_radius_interpolation 4 (by norm_num)
  exact ⟨h1, h2, h3 2 (by norm_num) (by norm_num), h4⟩

/- ### Claim C10 — duplicate frames in the Go decoder -/

/-- C10: adding a valid frame whose index is already stored never changes the
stored payloads or the received count (first payload wins), but the decoder's
`total` field is still overwritten with the new header's frame total. -/
theorem c10_duplicate_frame_kept (c : Config) (d : Decoder) (dots : List Nat)
    (frameIndex frameTotal : Nat) (payload : List Nat)
    (hdots : dots ≠ [])
    (hdec : Decoder.dotsToBytes c dots = frameIndex :: frameTotal :: payload)
    (hft : frameTotal ≠ 0)
    (hdup : (d.frames.lookup frameIndex).isSome = true) :
    (Decoder.addFrame c d dots).1.frames = d.frames ∧
    (Decoder.addFrame c d dots).1.received = d.received ∧
    (Decoder.addFrame c d dots).1.total = frameTotal ∧
    (Decoder.addFrame c d dots).2 = some (decide (frameTotal ≤ d.received)) := by
  have hlen : ¬ dots.length = 0 := by
    simpa [List.length_eq_zero] using hdots
  unfold Decoder.addFrame
  rw [if_neg hlen, hdec]
  simp only [if_neg hft, hdup, if_pos]
  simp

/-- Concrete instance of `c10_duplicate_frame_kept`: re-adding the only frame
of a completed single-frame transfer leaves the state unchanged apart from
re-writing `total`. -/
theorem c10_duplicate_frame_kept_witness :
    (Decoder.addFrame DefaultConfig ⟨[(1, [])], 1, 1⟩ [0, 0, 2, 0, 0, 4]).1.frames =
      [(1, [])] ∧
    (Decoder.addFrame DefaultConfig ⟨[(1, [])], 1, 1⟩ [0, 0, 2, 0, 0, 4]).1.received = 1 ∧
    (Decoder.addFrame DefaultConfig ⟨[(1, [])], 1, 1⟩ [0, 0, 2, 0, 0, 4]).1.total = 1 ∧
    (Decoder.addFrame DefaultConfig ⟨[(1, [])], 1, 1⟩ [0, 0, 2, 0, 0, 4]).2 =
      some (decide (1 ≤ 1)) :=
  c10_duplicate_frame_kept DefaultConfig ⟨[(1, [])], 1, 1⟩ [0, 0, 2, 0, 0, 4] 1 1 []
    (by decide) (by decide) (by decide) (by decide)

/- ### Claim C5 — malformed-capture rejection -/

/-- Every byte produced by `Decoder.dotsToBytes` is below 256 (it is packed
from exactly 8 bits), so a decoded `frameTotal > 255` can never occur. -/
theorem dotsToBytes_mem_lt (c : Config) (dots : List Nat) :
    ∀ x ∈ Decoder.dotsToBytes c dots, x < 256 := by
  intro x hx
  unfold Decoder.dotsToBytes at hx
  rcases List.mem_map.mp hx with ⟨ch, hch, rfl⟩
  have hbits : ∀ b ∈ (dots.map (natToBits c.BitsPerDot)).flatten, b ≤ 1 := by
    intro b hb
    rcases List.mem_flatten.mp hb with ⟨g, hg, hbg⟩
    rcases List.mem_map.mp hg with ⟨v, _, rfl⟩
    exact natToBits_le_one _ v b hbg
  obtain ⟨hlen, hle⟩ := chunks_forall 8 _ hbits ch hch
  have := bitsToNat_lt ch hle
  rw [hlen] at this
  omega

/-- C5 counterexample: the Go `Decoder.AddFrame` accepts a capture whose
header decodes to `frameIndex = 1 ≥ frameTotal = 1`: the state changes
(`received` becomes 1) and the capture is even reported as completing the
transfer, instead of being discarded with the state unchanged. -/
theorem c5_go_accepts_index_ge_total :
    Decoder.dotsToBytes DefaultConfig [0, 0, 2, 0, 0, 4] = [1, 1] ∧
    (Decoder.addFrame DefaultConfig Decoder.new [0, 0, 2, 0, 0, 4]).1 ≠ Decoder.new ∧
    (Decoder.addFrame DefaultConfig Decoder.new [0, 0, 2, 0, 0, 4]).1.received = 1 ∧
    (Decoder.addFrame DefaultConfig Decoder.new [0, 0, 2, 0, 0, 4]).2 = some true := by
  refine ⟨by decide, ?_, by decide, by decide⟩
  decide

/-- C5 (amended): malformed captures are discarded with the decoder state
unchanged and no progress reported — by the Go decoder for empty captures,
headers shorter than 2 bytes and `frameTotal = 0` (a decoded total can never
exceed 255), and by the JS consensus decoder additionally for
`frameTotal > 255` and `frameIndex ≥ frameTotal`; the Go decoder, unlike the
JS one, accepts `frameIndex ≥ frameTotal`. -/
theorem c5_malformed_rejected (c : Config) (d : Decoder) (dots : List Nat)
    (jd : JSDecoder) (jdots : List Nat) :
    (dots = [] → Decoder.addFrame c d dots = (d, none)) ∧
    ((Decoder.dotsToBytes c dots).length < 2 → Decoder.addFrame c d dots = (d, none)) ∧
    (∀ fi rest, Decoder.dotsToBytes c dots = fi :: 0 :: rest →
      Decoder.addFrame c d dots = (d, none)) ∧
    (∀ fi ft rest, Decoder.dotsToBytes c dots = fi :: ft :: rest → ft ≤ 255) ∧
    ((jsDotsToBytes jdots).length < 2 → jsAddFrame jd jdots = (jd, false)) ∧
    (∀ fi ft rest, jsDotsToBytes jdots = fi :: ft :: rest →
      ft = 0 ∨ 255 < ft ∨ ft ≤ fi → jsAddFrame jd jdots = (jd, false)) := by
  refine ⟨?_, ?_, ?_, ?_, ?_, ?_⟩
  · intro h
    subst h
    rfl
  · intro hshort
    unfold Decoder.addFrame
    by_cases hlen : dots.length = 0
    · rw [if_pos hlen]
    · rw [if_neg hlen]
      match hdec : Decoder.dotsToBytes c dots with
      | [] => rfl
      | [x] => rfl
      | x :: y :: rest =>
        rw [hdec] at hshort
        simp only [List.length_cons] at hshort
        exact absurd hshort (by omega)
  · intro fi rest hdec
    unfold Decoder.addFrame
    by_cases hlen : dots.length = 0
    · rw [if_pos hlen]
    · rw [if_neg hlen, hdec]
      simp
  · intro fi ft rest hdec
    have := dotsToBytes_mem_lt c dots ft (by rw [hdec]; simp)
    omega
  · intro hshort
    unfold jsAddFrame
    match hdec : jsDotsToBytes jdots with
    | [] => rfl
    | [x] => rfl
    | x :: y :: rest =>
      rw [hdec] at hshort
      simp only [List.length_cons] at hshort
      exact absurd hshort (by omega)
  · intro fi ft rest hdec hbad
    simp only [jsAddFrame, hdec]
    rcases hbad with h0 | h255 | hge
    · rw [if_pos (Or.inl h0)]
    · rw [if_pos (Or.inr (by omega))]
    · by_cases hsane : ft = 0 ∨ 200 < ft
      · rw [if_pos hsane]
      · rw [if_neg hsane, if_pos hge]

/-- Concrete instance of `c5_malformed_rejected`: the Go decoder rejects an
empty capture and the JS decoder rejects a capture whose header decodes to
`frameIndex = 255 ≥ frameTotal = 255`, both without touching their state. -/
theorem c5_malformed_rejected_witness :
    Decoder.addFrame DefaultConfig Decoder.new [] = (Decoder.new, none) ∧
    jsAddFrame JSDecoder.new [7, 7, 7, 7, 7, 7] = (JSDecoder.new, false) := by
  obtain ⟨hgo, _, _, _, _, hjs⟩ :=
    c5_malformed_rejected DefaultConfig Decoder.new [] JSDecoder.new [7, 7, 7, 7, 7, 7]
  exact ⟨hgo rfl, hjs 255 255 [] (by decide) (by decide)⟩

/- ### Claim C6 — transform drift gate -/

/-- C6: a fresh transform replaces the cache iff its center drift is below
15% of the cached scale, its scale drift below 20% and its rotation drift
below 15° (stated over squared distances, which is what the `sqrt`
comparison decides); holding scale and rotation fixed, a candidate whose
center moved by at least 15% of the cached scale is rejected while one that
moved by exactly 10% is accepted. -/
theorem c6_transform_drift (cached fresh : Transform) (hs : 0 < cached.scale) :
    (transformDriftOK cached fresh ↔
      ((fresh.cx - cached.cx) ^ 2 + (fresh.cy - cached.cy) ^ 2 <
          (0.15 * cached.scale) ^ 2 ∧
        |fresh.scale - cached.scale| < 0.20 * cached.scale ∧
        |fresh.rotation - cached.rotation| < 15 * Real.pi / 180)) ∧
    (fresh.scale = cached.scale → fresh.rotation = cached.rotation →
      ((cached.scale * 0.15 ≤ centerDrift cached fresh →
          scanCacheUpdate cached fresh = cached) ∧
        (centerDrift cached fresh = cached.scale * 0.10 →
          scanCacheUpdate cached fresh = fresh))) := by
  have hpos : (0 : ℝ) < cached.scale * 0.15 := by positivity
  have hsqrt : centerDrift cached fresh < cached.scale * 0.15 ↔
      (fresh.cx - cached.cx) ^ 2 + (fresh.cy - cached.cy) ^ 2 <
        (0.15 * cached.scale) ^ 2 := by
    rw [centerDrift, Real.sqrt_lt' hpos, show (0.15 : ℝ) * cached.scale =
      cached.scale * 0.15 by ring]
  constructor
  · rw [transformDriftOK, hsqrt, show (0.20 : ℝ) * cached.scale =
      cached.scale * 0.20 by ring]
  · intro hsc hrot
    constructor
    · intro hreject
      have : ¬ transformDriftOK cached fresh := by
        rw [transformDriftOK]
        push_neg
        intro h
        exact absurd h (not_lt.mpr hreject)
      rw [scanCacheUpdate, if_neg this]
    · intro haccept
      have : transformDriftOK cached fresh := by
        refine ⟨?_, ?_, ?_⟩
        · rw [haccept]
          nlinarith
        · rw [hsc, sub_self, abs_zero]
          positivity
        · rw [hrot, sub_self, abs_zero]
          have := Real.pi_pos
          positivity
      rw [scanCacheUpdate, if_pos this]

/-- Concrete instance of `c6_transform_drift`: with a cached unit-scale
transform at the origin, a fresh estimate displaced by 0.15 is rejected and
one displaced by 0.10 replaces the cache. -/
theorem c6_transform_drift_witness :
    scanCacheUpdate ⟨0, 0, 1, 0⟩ ⟨0.15, 0, 1, 0⟩ = ⟨0, 0, 1, 0⟩ ∧
    scanCacheUpdate ⟨0, 0, 1, 0⟩ ⟨0.1, 0, 1, 0⟩ = ⟨0.1, 0, 1, 0⟩ := by
  have hd1 : centerDrift ⟨0, 0, 1, 0⟩ ⟨0.15, 0, 1, 0⟩ = 0.15 := by
    rw [centerDrift]
    norm_num
    rw [show (9 : ℝ) = 3 ^ 2 by norm_num, show (400 : ℝ) = 20 ^ 2 by norm_num,
      Real.sqrt_sq (by norm_num : (0 : ℝ) ≤ 3), Real.sqrt_sq (by norm_num : (0 : ℝ) ≤ 20)]
  have hd2 : centerDrift ⟨0, 0, 1, 0⟩ ⟨0.1, 0, 1, 0⟩ = 0.1 := by
    rw [centerDrift]
    norm_num
    rw [show (100 : ℝ) = 10 ^ 2 by norm_num, Real.sqrt_sq (by norm_num : (0 : ℝ) ≤ 10)]
    norm_num
  constructor
  · exact ((c6_transform_drift ⟨0, 0, 1, 0⟩ ⟨0.15, 0, 1, 0⟩ (by norm_num)).2 rfl rfl).1
      (by rw [hd1]; norm_num)
  · exact ((c6_transform_drift ⟨0, 0, 1, 0⟩ ⟨0.1, 0, 1, 0⟩ (by norm_num)).2 rfl rfl).2
      (by rw [hd2]; norm_num)

/- ### Claim C3 — per-dot majority vote -/

theorem foldMax_keep (count : Nat → Nat) (v : Nat) :
    ∀ l : List Nat, (∀ u ∈ l, u = v ∨ count u < count v) →
    l.foldl (fun best u => if count best < count u then u else best) v = v := by
  intro l
  induction l with
  | nil => intro _; rfl
  | cons u l ih =>
    intro h
    have hu := h u (by simp)
    have hstep : (if count v < count u then u else v) = v := by
      rcases hu with rfl | hlt
      · simp
      · rw [if_neg (by omega)]
    simp only [List.foldl_cons, hstep]
    exact ih fun u' hu' => h u' (by simp [hu'])

theorem foldMax_reach (count : Nat → Nat) (v : Nat) :
    ∀ (l : List Nat) (b : Nat), v ∈ l → (∀ u ∈ l, u = v ∨ count u < count v) →
    count b < count v →
    l.foldl (fun best u => if count best < count u then u else best) b = v := by
  intro l
  induction l with
  | nil =>
    intro b hv
    simp at hv
  | cons u l ih =>
    intro b hv h hb
    have htail : ∀ u' ∈ l, u' = v ∨ count u' < count v := fun u' hu' => h u' (by simp [hu'])
    by_cases huv : u = v
    · subst huv
      simp only [List.foldl_cons, if_pos hb]
      exact foldMax_keep count u l htail
    · have hv' : v ∈ l := by
        rcases List.mem_cons.mp hv with h1 | h1
        · exact absurd h1.symm huv
        · exact h1
      have hlt : count u < count v := by
        rcases h u (by simp) with h1 | h1
        · exact absurd h1 huv
        · exact h1
      simp only [List.foldl_cons]
      by_cases hc : count b < count u
      · rw [if_pos hc]
        exact ih u hv' htail hlt
      · rw [if_neg hc]
        exact ih b hv' htail hb

/-- C3: whenever every capture has length `L` and, at every dot position `d`,
a strict majority of the at-least-5 captures carry the value `f d`, the
per-dot majority vote returns exactly `f d` at every position — even though a
minority of the captures may hold arbitrary values. -/
theorem c3_majority_vote (captures : List (List Nat)) (L : Nat) (f : Nat → Nat)
    (hn : 5 ≤ captures.length)
    (hlen : ∀ cap ∈ captures, cap.length = L)
    (hmaj : ∀ d < L, f d < 8 ∧
      captures.length < 2 * captures.countP fun cap => cap.getD d 0 % 8 == f d) :
    majorityVote captures = (List.range L).map f := by
  match captures, hn with
  | c0 :: rest, _ =>
    rw [majorityVote, hlen c0 (by simp)]
    apply List.map_congr_left
    intro d hd
    have hdL : d < L := List.mem_range.mp hd
    obtain ⟨hf8, hcount⟩ := hmaj d hdL
    set count := fun v => (c0 :: rest).countP fun cap => cap.getD d 0 % 8 == v with hcount_def
    have hstrict : ∀ u, u ≠ f d → count u < count (f d) := by
      intro u hu
      have hdisj := countP_disjoint_le (c0 :: rest)
        (fun cap => cap.getD d 0 % 8 == u) (fun cap => cap.getD d 0 % 8 == f d)
        (by
          intro cap _ hboth
          obtain ⟨h1, h2⟩ := hboth
          simp only [beq_iff_eq] at h1 h2
          exact hu (h1 ▸ h2))
      simp only [hcount_def]
      omega
    have hall : ∀ u ∈ List.range 8, u = f d ∨ count u < count (f d) := by
      intro u _
      by_cases hu : u = f d
      · exact Or.inl hu
      · exact Or.inr (hstrict u hu)
    by_cases h0 : f d = 0
    · rw [h0]
      refine foldMax_keep count 0 (List.range 8) ?_
      intro u hu
      rcases hall u hu with h | h
      · rw [h, h0]
        exact Or.inl rfl
      · rw [h0] at h
        exact Or.inr h
    · exact foldMax_reach count (f d) (List.range 8) 0 (List.mem_range.mpr hf8) hall
        (hstrict 0 (Ne.symm h0))

/-- Concrete instance of `c3_majority_vote`: five captures of two dots with
up to two adversarially wrong captures per position still vote to the
majority values. -/
theorem c3_majority_vote_witness :
    majorityVote [[1, 2], [1, 2], [1, 3], [7, 2], [0, 2]] = [1, 2] :=
  (c3_majority_vote [[1, 2], [1, 2], [1, 3], [7, 2], [0, 2]] 2
    (fun d => if d = 0 then 1 else 2) (by decide) (by decide) (by decide)).trans
    (by decide)

/- ### Claim C2 — total-frame consensus locking -/

theorem jsAccumulate_preserves (d : JSDecoder) (t fi : Nat) (dots : List Nat) :
    (jsAccumulate d t fi dots).1.totalFrames = d.totalFrames ∧
    (jsAccumulate d t fi dots).1.ftCounts = d.ftCounts ∧
    (jsAccumulate d t fi dots).1.ftTotal = d.ftTotal := by
  unfold jsAccumulate
  dsimp only
  split
  · split
    · split
      · exact ⟨rfl, rfl, rfl⟩
      · exact ⟨rfl, rfl, rfl⟩
    · exact ⟨rfl, rfl, rfl⟩
  · exact ⟨rfl, rfl, rfl⟩

theorem jsAddFrame_lock_preserved (d : JSDecoder) (t : Nat) (ht : d.totalFrames = some t)
    (dots : List Nat) : ((jsAddFrame d dots).1).totalFrames = some t := by
  unfold jsAddFrame
  match hdec : jsDotsToBytes dots with
  | [] => exact ht
  | [x] => exact ht
  | fi :: ft :: rest =>
    dsimp only
    by_cases h1 : ft = 0 ∨ 200 < ft
    · rw [if_pos h1]
      exact ht
    · rw [if_neg h1, ht]
      dsimp only
      by_cases h2 : ft ≤ fi
      · rw [if_pos h2]
        exact ht
      · rw [if_neg h2]
        by_cases h3 : ft ≠ t
        · rw [if_pos h3]
        · rw [if_neg h3]
          exact (jsAccumulate_preserves _ t fi dots).1

theorem ftPlurality_foldl_mono (counts : List (Nat × Nat)) (l : List Nat) :
    ∀ b : Option Nat × Nat, b.2 ≤
      (l.foldl (fun best k => if best.2 < getCount counts k then
        (some k, getCount counts k) else best) b).2 := by
  induction l with
  | nil => intro b; exact le_refl _
  | cons k l ih =>
    intro b
    simp only [List.foldl_cons]
    by_cases h : b.2 < getCount counts k
    · rw [if_pos h]
      exact le_trans (le_of_lt h) (ih (some k, getCount counts k))
    · rw [if_neg h]
      exact ih b

theorem ftPlurality_foldl_ge (counts : List (Nat × Nat)) (l : List Nat) :
    ∀ (b : Option Nat × Nat) (u : Nat), u ∈ l → getCount counts u ≤
      (l.foldl (fun best k => if best.2 < getCount counts k then
        (some k, getCount counts k) else best) b).2 := by
  induction l with
  | nil =>
    intro b u hu
    simp at hu
  | cons k l ih =>
    intro b u hu
    simp only [List.foldl_cons]
    rcases List.mem_cons.mp hu with rfl | hu'
    · by_cases h : b.2 < getCount counts u
      · rw [if_pos h]
        exact le_trans (le_refl _) (ftPlurality_foldl_mono counts l (some u, getCount counts u))
      · rw [if_neg h]
        exact le_trans (not_lt.mp h) (ftPlurality_foldl_mono counts l b)
    · by_cases h : b.2 < getCount counts k
      · rw [if_pos h]
        exact ih (some k, getCount counts k) u hu'
      · rw [if_neg h]
        exact ih b u hu'

theorem ftPlurality_foldl_val (counts : List (Nat × Nat)) (l : List Nat) :
    ∀ b : Option Nat × Nat, (∀ k, b.1 = some k → b.2 = getCount counts k) →
    ∀ k, (l.foldl (fun best k => if best.2 < getCount counts k then
        (some k, getCount counts k) else best) b).1 = some k →
      (l.foldl (fun best k => if best.2 < getCount counts k then
        (some k, getCount counts k) else best) b).2 = getCount counts k := by
  induction l with
  | nil => intro b hb k hk; exact hb k hk
  | cons k0 l ih =>
    intro b hb k
    simp only [List.foldl_cons]
    by_cases h : b.2 < getCount counts k0
    · rw [if_pos h]
      exact ih (some k0, getCount counts k0) (by intro k' hk'; simp at hk'; rw [hk']) k
    · rw [if_neg h]
      exact ih b hb k

theorem ftPlurality_spec (counts : List (Nat × Nat)) (v : Nat)
    (h : (ftPlurality counts).1 = some v) :
    (ftPlurality counts).2 = getCount counts v ∧
    ∀ u ≤ 200, getCount counts u ≤ (ftPlurality counts).2 := by
  constructor
  · exact ftPlurality_foldl_val counts (List.range 201) (none, 0) (by simp) v h
  · intro u hu
    exact ftPlurality_foldl_ge counts (List.range 201) (none, 0) u
      (List.mem_range.mpr (by omega))

theorem jsAddFrame_unlock_cases (d : JSDecoder) (dots : List Nat)
    (hnone : d.totalFrames = none) :
    ((jsAddFrame d dots).1.totalFrames = none) ∨
    (∃ fi ft rest, jsDotsToBytes dots = fi :: ft :: rest ∧
      (jsAddFrame d dots).1.ftTotal = d.ftTotal + 1 ∧
      FT_SETTLE_MIN ≤ d.ftTotal + 1 ∧
      (jsAddFrame d dots).1.ftCounts = bumpCount d.ftCounts ft ∧
      (ftPlurality (bumpCount d.ftCounts ft)).1 = (jsAddFrame d dots).1.totalFrames ∧
      ¬ (ftPlurality (bumpCount d.ftCounts ft)).2 * 10 < (d.ftTotal + 1) * 3) := by
  unfold jsAddFrame
  match hdec : jsDotsToBytes dots with
  | [] => exact Or.inl hnone
  | [x] => exact Or.inl hnone
  | fi :: ft :: rest =>
    dsimp only
    by_cases h1 : ft = 0 ∨ 200 < ft
    · rw [if_pos h1]
      exact Or.inl hnone
    · rw [if_neg h1, hnone]
      dsimp only
      by_cases h2 : ft ≤ fi
      · rw [if_pos h2]
        exact Or.inl hnone
      · rw [if_neg h2]
        by_cases h3 : d.ftTotal + 1 < FT_SETTLE_MIN
        · rw [if_pos h3]
          exact Or.inl rfl
        · rw [if_neg h3]
          by_cases h4 : (ftPlurality (bumpCount d.ftCounts ft)).2 * 10 < (d.ftTotal + 1) * 3
          · rw [if_pos h4]
            exact Or.inl rfl
          · rw [if_neg h4]
            cases hbest : (ftPlurality (bumpCount d.ftCounts ft)).1 with
            | none =>
              dsimp only
              exact Or.inl rfl
            | some tb =>
              dsimp only
              by_cases h5 : ft ≠ tb
              · rw [if_pos h5]
                exact Or.inr ⟨fi, ft, rest, rfl, rfl, by omega, rfl, hbest, h4⟩
              · rw [if_neg h5]
                obtain ⟨p1, p2, p3⟩ := jsAccumulate_preserves
                  ⟨d.votes, d.frames, some tb, d.received,
                    bumpCount d.ftCounts ft, d.ftTotal + 1⟩ tb fi dots
                exact Or.inr ⟨fi, ft, rest, rfl, by rw [p3], by omega, by rw [p2],
                  by rw [p1]; exact hbest, h4⟩

/-- Ten noiseless captures of the single-frame header `(0, 1)` drive the
consensus decoder from its initial state to a lock at `totalFrames = 1`. -/
def c2LockedState : JSDecoder :=
  (List.replicate 10 [0, 0, 0, 0, 0, 4]).foldl (fun d dots => (jsAddFrame d dots).1)
    JSDecoder.new

/-- C2 counterexample: in the locked state a capture reporting
`totalFrames = 2` is discarded (the lock stays at 1) but it IS re-tallied —
the tally entry for 2 rises from 0 to 1 and the settle counter advances —
refuting "discarded without being re-tallied". -/
theorem c2_locked_capture_is_retallied :
    c2LockedState.totalFrames = some 1 ∧
    getCount c2LockedState.ftCounts 2 = 0 ∧
    (jsAddFrame c2LockedState [0, 0, 0, 0, 1, 0]).1.totalFrames = some 1 ∧
    getCount ((jsAddFrame c2LockedState [0, 0, 0, 0, 1, 0]).1).ftCounts 2 = 1 ∧
    ((jsAddFrame c2LockedState [0, 0, 0, 0, 1, 0]).1).ftTotal =
      c2LockedState.ftTotal + 1 ∧
    (jsAddFrame c2LockedState [0, 0, 0, 0, 1, 0]).2 = false := by
  decide

/-- C2 (amended): once locked, no sequence of subsequent captures ever
changes the locked total; a valid capture reporting a different total is
discarded — its dot values are never accumulated, the payload stores, the
lock and the received count stay untouched — but it is still re-tallied
(`ftCounts`/`ftTotal` advance); and the count stays unlocked until at least
10 captures have been tallied, locking only onto a plurality value holding
at least 30% of the tally. -/
theorem c2_lock_stability (d : JSDecoder) (t : Nat) (ht : d.totalFrames = some t) :
    (∀ dotsList : List (List Nat),
      ((dotsList.foldl (fun s dots => (jsAddFrame s dots).1) d).totalFrames = some t)) ∧
    (∀ dots fi ft rest, jsDotsToBytes dots = fi :: ft :: rest →
      ft ≠ 0 → ft ≤ 200 → fi < ft → ft ≠ t →
      jsAddFrame d dots =
        ({ d with ftCounts := bumpCount d.ftCounts ft, ftTotal := d.ftTotal + 1 }, false)) ∧
    (∀ d' : JSDecoder, d'.totalFrames = none → d'.ftTotal + 1 < FT_SETTLE_MIN →
      ∀ dots, ((jsAddFrame d' dots).1).totalFrames = none) ∧
    (∀ (d' : JSDecoder) (dots : List Nat) (v : Nat), d'.totalFrames = none →
      ((jsAddFrame d' dots).1).totalFrames = some v →
      FT_SETTLE_MIN ≤ ((jsAddFrame d' dots).1).ftTotal ∧
      3 * ((jsAddFrame d' dots).1).ftTotal ≤
        10 * getCount ((jsAddFrame d' dots).1).ftCounts v ∧
      ∀ u ≤ 200, getCount ((jsAddFrame d' dots).1).ftCounts u ≤
        getCount ((jsAddFrame d' dots).1).ftCounts v) := by
  refine ⟨?_, ?_, ?_, ?_⟩
  · intro dotsList
    induction dotsList generalizing d with
    | nil => exact ht
    | cons dots rest ih => exact ih _ (jsAddFrame_lock_preserved d t ht dots)
  · intro dots fi ft rest hdec hft0 hft200 hfi hne
    simp only [jsAddFrame, hdec]
    rw [if_neg (by omega), if_neg (by omega), ht]
    dsimp only
    rw [if_pos hne]
  · intro d' hnone hsettle dots
    unfold jsAddFrame
    match hdec : jsDotsToBytes dots with
    | [] => exact hnone
    | [x] => exact hnone
    | fi :: ft :: rest =>
      dsimp only
      by_cases h1 : ft = 0 ∨ 200 < ft
      · rw [if_pos h1]
        exact hnone
      · rw [if_neg h1, hnone]
        dsimp only
        by_cases h2 : ft ≤ fi
        · rw [if_pos h2]
          exact hnone
        · rw [if_neg h2, if_pos hsettle]
  · intro d' dots v hnone hlock
    rcases jsAddFrame_unlock_cases d' dots hnone with hcontra | hcase
    · rw [hlock] at hcontra
      exact absurd hcontra (by simp)
    · obtain ⟨fi, ft, rest, hdec, hftTotal, hsettle, hcounts, hplu, hge⟩ := hcase
      rw [hlock] at hplu
      obtain ⟨hval, hmax⟩ := ftPlurality_spec (bumpCount d'.ftCounts ft) v hplu
      rw [hval] at hge
      refine ⟨by rw [hftTotal]; exact hsettle, ?_, ?_⟩
      · rw [hftTotal, hcounts]
        omega
      · intro u hu
        rw [hcounts]
        have := hmax u hu
        rw [hval] at this
        exact this

/-- Concrete instance of `c2_lock_stability` at the reachable locked state
`c2LockedState` (locked at total 1): two further mismatched captures leave
the lock at 1, and a single mismatched capture changes exactly the tally
fields. -/
theorem c2_lock_stability_witness :
    (([[0, 0, 0, 0, 1, 0], [0, 0, 0, 0, 1, 0]] : List (List Nat)).foldl
        (fun s dots => (jsAddFrame s dots).1) c2LockedState).totalFrames = some 1 ∧
    jsAddFrame c2LockedState [0, 0, 0, 0, 1, 0] =
      ({ c2LockedState with
          ftCounts := bumpCount c2LockedState.ftCounts 2,
          ftTotal := c2LockedState.ftTotal + 1 }, false) := by
  obtain ⟨hseq, hdiscard, _, _⟩ := c2_lock_stability c2LockedState 1 (by decide)
  exact ⟨hseq _, hdiscard [0, 0, 0, 0, 1, 0] 0 2 [] (by decide) (by decide) (by decide)
    (by decide) (by decide)⟩

/- ### Claim C4 — contaminated vote buckets are discarded -/

/-- C4: when a capture matching the locked total pushes a frame-index bucket
to the vote threshold but the majority-voted header disagrees with the bucket
key or the locked total, the entire bucket for that index is cleared
(accumulation restarts from empty) and no payload is stored for that index:
the payload map and the received count are untouched and the tick reports no
completion. -/
theorem c4_contaminated_bucket_cleared (d : JSDecoder) (t : Nat)
    (ht : d.totalFrames = some t)
    (dots : List Nat) (fi : Nat) (rest : List Nat)
    (hdec : jsDotsToBytes dots = fi :: t :: rest)
    (ht0 : t ≠ 0) (ht200 : t ≤ 200) (hfi : fi < t)
    (bucket : List (List Nat)) (hbucket : (d.votes.lookup fi).getD [] = bucket)
    (hfull : MIN_VOTES ≤ bucket.length + 1)
    (hmis : ∀ vfi vft vrest,
      jsDotsToBytes (majorityVote (bucket ++ [dots])) = vfi :: vft :: vrest →
      vfi ≠ fi ∨ vft ≠ t) :
    jsAddFrame d dots =
      ({ d with
          votes := setAssoc d.votes fi [],
          ftCounts := bumpCount d.ftCounts t,
          ftTotal := d.ftTotal + 1 }, false) ∧
    ((jsAddFrame d dots).1).votes.lookup fi = some [] ∧
    ((jsAddFrame d dots).1).frames = d.frames ∧
    ((jsAddFrame d dots).1).received = d.received := by
  have hmain : jsAddFrame d dots =
      ({ d with
          votes := setAssoc d.votes fi [],
          ftCounts := bumpCount d.ftCounts t,
          ftTotal := d.ftTotal + 1 }, false) := by
    simp only [jsAddFrame, hdec]
    rw [if_neg (by omega), if_neg (by omega), ht]
    dsimp only
    rw [if_neg (by omega)]
    unfold jsAccumulate
    dsimp only
    rw [hbucket, if_pos (by simpa using hfull)]
    match hv : jsDotsToBytes (majorityVote (bucket ++ [dots])) with
    | [] =>
      dsimp only
      rw [setAssoc_setAssoc]
    | [x] =>
      dsimp only
      rw [setAssoc_setAssoc]
    | vfi :: vft :: vrest =>
      dsimp only
      rw [if_pos (hmis vfi vft vrest hv), setAssoc_setAssoc]
  refine ⟨hmain, ?_, ?_, ?_⟩
  · rw [hmain]
    exact lookup_setAssoc d.votes fi []
  · rw [hmain]
  · rw [hmain]

/-- Four contaminated captures (header `(1,1)`) already sitting in the bucket
for frame 0 of a transfer locked at total 1. -/
def c4State : JSDecoder :=
  ⟨[(0, [[0, 0, 2, 0, 0, 4], [0, 0, 2, 0, 0, 4], [0, 0, 2, 0, 0, 4], [0, 0, 2, 0, 0, 4]])],
   [], some 1, 0, [(1, 10)], 10⟩

/-- Concrete instance of `c4_contaminated_bucket_cleared`: the fifth capture
(header `(0,1)`) triggers the vote, the majority header decodes to `(1,1)`
which disagrees with bucket key 0, and the bucket is cleared with no payload
stored. -/
theorem c4_contaminated_bucket_cleared_witness :
    ((jsAddFrame c4State [0, 0, 0, 0, 0, 4]).1).votes.lookup 0 = some [] ∧
    ((jsAddFrame c4State [0, 0, 0, 0, 0, 4]).1).frames = c4State.frames ∧
    ((jsAddFrame c4State [0, 0, 0, 0, 0, 4]).1).received = c4State.received := by
  obtain ⟨_, h1, h2, h3⟩ := c4_contaminated_bucket_cleared c4State 1 (by decide)
    [0, 0, 0, 0, 0, 4] 0 [] (by decide) (by decide) (by decide) (by decide)
    [[0, 0, 2, 0, 0, 4], [0, 0, 2, 0, 0, 4], [0, 0, 2, 0, 0, 4], [0, 0, 2, 0, 0, 4]]
    (by decide) (by decide)
    (by
      intro vfi vft vrest h
      have hv : ([1, 1] : List Nat) = vfi :: vft :: vrest := by
        rw [← h]
        decide
      simp only [List.cons.injEq] at hv
      exact Or.inl (by omega))
  exact ⟨h1, h2, h3⟩

/- ### Claim C7 — hue-invariant palette matching -/

theorem min3_le_max3 (r g b : Nat) : min3 r g b ≤ max3 r g b :=
  le_trans (Nat.min_le_left _ _) (Nat.le_max_left _ _)

theorem jsTrunc_eq_zero (q : ℚ) (h1 : -1 < q) (h2 : q < 1) : jsTrunc q = 0 := by
  unfold jsTrunc
  by_cases h : q < 0
  · rw [if_pos h]
    have hfloor : ⌊-q⌋ = 0 := by
      rw [Int.floor_eq_zero_iff, Set.mem_Ico]
      exact ⟨by linarith, by linarith⟩
    rw [hfloor]
    ring
  · rw [if_neg h]
    rw [Int.floor_eq_zero_iff, Set.mem_Ico]
    exact ⟨not_lt.mp h, h2⟩

theorem jsRem_eq_self (a : ℚ) (h1 : -6 < a) (h2 : a < 6) : jsRem a 6 = a := by
  unfold jsRem
  rw [jsTrunc_eq_zero (a / 6) (by linarith) (by linarith)]
  push_cast
  ring

/-- When the sample is chromatic enough for a defined hue
(`max - min ≥ 10`), the hue lies in `[0, 360)`, in particular it is
nonnegative. -/
theorem hueAngle_nonneg (r g b : Nat)
    (h : (10 : ℚ) ≤ (max3 r g b : ℚ) - (min3 r g b : ℚ)) : 0 ≤ hueAngle r g b := by
  unfold hueAngle
  set delta : ℚ := (max3 r g b : ℚ) - (min3 r g b : ℚ) with hdelta
  have hdpos : 0 < delta := by linarith
  have hrle : (r : ℚ) ≤ (max3 r g b : ℚ) := by
    exact_mod_cast Nat.le_max_left r (max g b)
  have hgle : (g : ℚ) ≤ (max3 r g b : ℚ) := by
    exact_mod_cast le_trans (Nat.le_max_left g b) (Nat.le_max_right r (max g b))
  have hble : (b : ℚ) ≤ (max3 r g b : ℚ) := by
    exact_mod_cast le_trans (Nat.le_max_right g b) (Nat.le_max_right r (max g b))
  have hrge : (min3 r g b : ℚ) ≤ (r : ℚ) := by
    exact_mod_cast Nat.min_le_left r (min g b)
  have hgge : (min3 r g b : ℚ) ≤ (g : ℚ) := by
    exact_mod_cast le_trans (Nat.min_le_right r (min g b)) (Nat.min_le_left g b)
  have hbge : (min3 r g b : ℚ) ≤ (b : ℚ) := by
    exact_mod_cast le_trans (Nat.min_le_right r (min g b)) (Nat.min_le_right g b)
  have hbase : -1 ≤ (if max3 r g b = r then jsRem (((g : ℚ) - (b : ℚ)) / delta) 6
      else if max3 r g b = g then ((b : ℚ) - (r : ℚ)) / delta + 2
      else ((r : ℚ) - (g : ℚ)) / delta + 4) := by
    by_cases hr : max3 r g b = r
    · rw [if_pos hr]
      have hq1 : -1 ≤ ((g : ℚ) - (b : ℚ)) / delta := by
        rw [le_div_iff₀ hdpos]
        nlinarith
      have hq2 : ((g : ℚ) - (b : ℚ)) / delta ≤ 1 := by
        rw [div_le_one hdpos]
        nlinarith
      rw [jsRem_eq_self _ (by linarith) (by linarith)]
      exact hq1
    · rw [if_neg hr]
      by_cases hg : max3 r g b = g
      · rw [if_pos hg]
        have : -1 ≤ ((b : ℚ) - (r : ℚ)) / delta := by
          rw [le_div_iff₀ hdpos]
          nlinarith
        linarith
      · rw [if_neg hg]
        have : -1 ≤ ((r : ℚ) - (g : ℚ)) / delta := by
          rw [le_div_iff₀ hdpos]
          nlinarith
        linarith
  set base := (if max3 r g b = r then jsRem (((g : ℚ) - (b : ℚ)) / delta) 6
      else if max3 r g b = g then ((b : ℚ) - (r : ℚ)) / delta + 2
      else ((r : ℚ) - (g : ℚ)) / delta + 4) with hbase_def
  by_cases hneg : base * 60 < 0
  · rw [if_pos hneg]
    nlinarith
  · rw [if_neg hneg]
    exact not_lt.mp hneg

theorem rgbToHue_eq_hueAngle (r g b : Nat)
    (h : (10 : ℚ) ≤ (max3 r g b : ℚ) - (min3 r g b : ℚ)) :
    rgbToHue r g b = hueAngle r g b := by
  rw [rgbToHue, if_neg (not_lt.mpr h)]

/-- C7 counterexample: the RGB samples (50,59,59) and (56,66,66) have the
same hue angle (180°) and both pass the stated chromatic gate
(saturation > 0.15 and max channel > 30), yet `matchColor` classifies them to
different palette indices (3 = Green vs 4 = Cyan): the classifier's
additional `max − min < 10` achromatic cutoff, absent from the claim, routes
the first sample to the RGB-distance fallback. -/
theorem c7_same_hue_different_index :
    hueAngle 50 59 59 = 180 ∧ hueAngle 56 66 66 = 180 ∧
    (0.15 : ℚ) < ((max3 50 59 59 : ℚ) - (min3 50 59 59 : ℚ)) / (max3 50 59 59 : ℚ) ∧
    30 < max3 50 59 59 ∧
    (0.15 : ℚ) < ((max3 56 66 66 : ℚ) - (min3 56 66 66 : ℚ)) / (max3 56 66 66 : ℚ) ∧
    30 < max3 56 66 66 ∧
    matchColor 50 59 59 = 3 ∧ matchColor 56 66 66 = 4 := by
  refine ⟨?_, ?_, by norm_num [max3, min3], by norm_num [max3], by norm_num [max3, min3],
    by norm_num [max3], ?_, ?_⟩
  · norm_num [hueAngle, max3, min3, jsRem, jsTrunc]
  · norm_num [hueAngle, max3, min3, jsRem, jsTrunc]
  · norm_num [matchColor, rgbToHue, hueAngle, jsRem, jsTrunc, hueDist, scanBest,
      scanBestAux, palette, paletteHues, max3, min3, colorDistSq, abs, max_def]
  · norm_num [matchColor, rgbToHue, hueAngle, jsRem, jsTrunc, hueDist, scanBest,
      scanBestAux, palette, paletteHues, max3, min3, colorDistSq, abs, max_def]

/-- C7 (amended): two RGB samples with the same hue angle that pass the
chromatic gate (saturation > 0.15 and max channel > 30) AND are chromatic
enough for the classifier's hue to be defined (`max − min ≥ 10`) classify to
the same palette index. -/
theorem c7_hue_invariance (r1 g1 b1 r2 g2 b2 : Nat)
    (hm1 : 30 < max3 r1 g1 b1) (hm2 : 30 < max3 r2 g2 b2)
    (hs1 : (0.15 : ℚ) < ((max3 r1 g1 b1 : ℚ) - (min3 r1 g1 b1 : ℚ)) / (max3 r1 g1 b1 : ℚ))
    (hs2 : (0.15 : ℚ) < ((max3 r2 g2 b2 : ℚ) - (min3 r2 g2 b2 : ℚ)) / (max3 r2 g2 b2 : ℚ))
    (hd1 : 10 ≤ max3 r1 g1 b1 - min3 r1 g1 b1)
    (hd2 : 10 ≤ max3 r2 g2 b2 - min3 r2 g2 b2)
    (hhue : hueAngle r1 g1 b1 = hueAngle r2 g2 b2) :
    matchColor r1 g1 b1 = matchColor r2 g2 b2 := by
  have hc1 : (10 : ℚ) ≤ (max3 r1 g1 b1 : ℚ) - (min3 r1 g1 b1 : ℚ) := by
    have hmm := min3_le_max3 r1 g1 b1
    rw [← Nat.cast_sub hmm]
    exact_mod_cast hd1
  have hc2 : (10 : ℚ) ≤ (max3 r2 g2 b2 : ℚ) - (min3 r2 g2 b2 : ℚ) := by
    have hmm := min3_le_max3 r2 g2 b2
    rw [← Nat.cast_sub hmm]
    exact_mod_cast hd2
  have hnn : 0 ≤ hueAngle r2 g2 b2 := hueAngle_nonneg r2 g2 b2 hc2
  unfold matchColor
  dsimp only
  rw [rgbToHue_eq_hueAngle r1 g1 b1 hc1, rgbToHue_eq_hueAngle r2 g2 b2 hc2, hhue]
  have hcond1 : (0.15 : ℚ) < (if max3 r1 g1 b1 = 0 then (0 : ℚ)
      else ((max3 r1 g1 b1 : ℚ) - (min3 r1 g1 b1 : ℚ)) / (max3 r1 g1 b1 : ℚ)) ∧
      30 < max3 r1 g1 b1 := by
    refine ⟨?_, hm1⟩
    rw [if_neg (by omega : ¬ max3 r1 g1 b1 = 0)]
    exact hs1
  have hcond2 : (0.15 : ℚ) < (if max3 r2 g2 b2 = 0 then (0 : ℚ)
      else ((max3 r2 g2 b2 : ℚ) - (min3 r2 g2 b2 : ℚ)) / (max3 r2 g2 b2 : ℚ)) ∧
      30 < max3 r2 g2 b2 := by
    refine ⟨?_, hm2⟩
    rw [if_neg (by omega : ¬ max3 r2 g2 b2 = 0)]
    exact hs2
  rw [if_pos hcond1, if_pos hcond2, if_pos hnn, if_pos hnn]

/-- Concrete instance of `c7_hue_invariance`: the claim's example pair
(200,40,40) and (255,80,80) — the same red hue at two brightness levels —
classify to the same palette index, namely 0 (red). -/
theorem c7_hue_invariance_witness :
    matchColor 200 40 40 = matchColor 255 80 80 ∧ matchColor 200 40 40 = 0 := by
  refine ⟨c7_hue_invariance 200 40 40 255 80 80 (by norm_num [max3])
    (by norm_num [max3]) (by norm_num [max3, min3]) (by norm_num [max3, min3])
    (by norm_num [max3, min3]) (by norm_num [max3, min3]) ?_, ?_⟩
  · norm_num [hueAngle, max3, min3, jsRem, jsTrunc]
  · norm_num [matchColor, rgbToHue, hueAngle, jsRem, jsTrunc, hueDist, scanBest,
      scanBestAux, palette, paletteHues, max3, min3, colorDistSq, abs, max_def]

/- ### Claim C9 — silent truncation beyond 255 frames -/

theorem flatten_range_chunks {α : Type*} (w : Nat) : ∀ (T : Nat) (P : List α),
    ((List.range T).map fun i => (P.drop (i * w)).take w).flatten = P.take (T * w) := by
  intro T
  induction T with
  | zero => intro P; simp
  | succ T ih =>
    intro P
    rw [List.range_succ_eq_map, List.map_cons, List.flatten_cons, List.map_map]
    have hmap : ((List.range T).map fun i => (P.drop (Nat.succ i * w)).take w) =
        (List.range T).map fun i => ((P.drop w).drop (i * w)).take w := by
      apply List.map_congr_left
      intro i _
      rw [List.drop_drop]
      congr 2
      rw [Nat.succ_mul]
      omega
    rw [show ((fun i => (P.drop (i * w)).take w) ∘ Nat.succ) =
        fun i => (P.drop (Nat.succ i * w)).take w from rfl, hmap, ih (P.drop w)]
    rw [Nat.zero_mul, List.drop_zero,
      show Nat.succ T * w = w + T * w by rw [Nat.succ_mul, Nat.add_comm],
      List.take_add]

/-- C9: a payload longer than `255 * BytesPerFrame` (5100 bytes for the
default configuration) is encoded into exactly 255 frames, all declaring
total 255, whose payload chunks cover precisely the first
`255 * BytesPerFrame` bytes; the remaining bytes are dropped and no error or
other indication is produced. -/
theorem c9_truncation_at_255_frames (data : List Nat)
    (h : 255 * DefaultConfig.BytesPerFrame < data.length) :
    (Encoder.Encode DefaultConfig data).length = 255 ∧
    ((Encoder.Encode DefaultConfig data).map Frame.Payload).flatten =
      data.take (255 * DefaultConfig.BytesPerFrame) ∧
    ∀ fr ∈ Encoder.Encode DefaultConfig data, fr.Total = 255 := by
  have hbpf : DefaultConfig.BytesPerFrame = 20 := by decide
  rw [hbpf] at h ⊢
  have hT : min ((data.length + 20 - 1) / 20) 255 = 255 := by
    have h20 : 255 ≤ (data.length + 20 - 1) / 20 := by
      rw [Nat.le_div_iff_mul_le (by norm_num : 0 < 20)]
      omega
    omega
  unfold Encoder.Encode
  rw [if_neg (by decide), hbpf, hT]
  refine ⟨by simp, ?_, ?_⟩
  · rw [List.map_map]
    exact flatten_range_chunks 20 255 data
  · intro fr hfr
    rcases List.mem_map.mp hfr with ⟨i, _, rfl⟩
    rfl

/-- Concrete instance of `c9_truncation_at_255_frames` on a 5101-byte
payload. -/
theorem c9_truncation_at_255_frames_witness :
    (Encoder.Encode DefaultConfig (List.replicate 5101 0)).length = 255 ∧
    ((Encoder.Encode DefaultConfig (List.replicate 5101 0)).map Frame.Payload).flatten =
      (List.replicate 5101 0).take (255 * DefaultConfig.BytesPerFrame) := by
  obtain ⟨h1, h2, _⟩ := c9_truncation_at_255_frames (List.replicate 5101 0)
    (by rw [List.length_replicate]; decide)
  exact ⟨h1, h2⟩

/- ### Claim C1 — encode/decode round trip (default configuration) -/

theorem bytesToBits_length (data : List Nat) : (bytesToBits data).length = 8 * data.length := by
  unfold bytesToBits
  induction data with
  | nil => rfl
  | cons x l ih =>
    rw [List.map_cons, List.flatten_cons, List.length_append, natToBits_length, ih,
      List.length_cons]
    ring

theorem bytesToBits_le_one (data : List Nat) : ∀ x ∈ bytesToBits data, x ≤ 1 := by
  intro x hx
  unfold bytesToBits at hx
  rcases List.mem_flatten.mp hx with ⟨g, hg, hxg⟩
  rcases List.mem_map.mp hg with ⟨v, _, rfl⟩
  exact natToBits_le_one 8 v x hxg

/-- Round trip of one 23-byte default-configuration frame image: packing it
onto the 60 three-bit dots and unpacking the dots into complete bytes
recovers the first 22 bytes (the 23rd byte's low bits do not fit a complete
dot/byte and are dropped by both loops). -/
theorem default_dots_roundtrip (data : List Nat) (hlen : data.length = 23)
    (hb : ∀ x ∈ data, x < 256) :
    Decoder.dotsToBytes DefaultConfig (Encoder.bytesToDots DefaultConfig data) =
      data.take 22 := by
  have hBlen : (bytesToBits data).length = 184 := by rw [bytesToBits_length, hlen]
  have hBbits := bytesToBits_le_one data
  have hch := chunks_forall (P := fun x => x ≤ 1) 3 (bytesToBits data) hBbits
  unfold Encoder.bytesToDots Decoder.dotsToBytes
  rw [show DefaultConfig.BitsPerDot = 3 from rfl, show DefaultConfig.TotalDots = 60 from rfl]
  rw [← List.map_take, List.map_map]
  have hmapid : ((chunks 3 (bytesToBits data)).take 60).map (natToBits 3 ∘ bitsToNat) =
      (chunks 3 (bytesToBits data)).take 60 := by
    conv_rhs => rw [← List.map_id ((chunks 3 (bytesToBits data)).take 60)]
    apply List.map_congr_left
    intro ch hch'
    obtain ⟨hl3, hle⟩ := hch ch (List.take_subset _ _ hch')
    show natToBits 3 (bitsToNat ch) = ch
    rw [← hl3]
    exact natToBits_bitsToNat ch hle
  rw [hmapid, chunks_take_flatten 3 (by norm_num) (bytesToBits data) 60, hBlen]
  rw [show 3 * min 60 (184 / 3) = 180 from by norm_num]
  have hlen176 : (((data.take 22).map (natToBits 8)).flatten).length = 176 := by
    have h22 : (bytesToBits (data.take 22)).length = 176 := by
      rw [bytesToBits_length, List.length_take, hlen]
      norm_num
    exact h22
  have hsplit : (bytesToBits data).take 180 =
      ((data.take 22).map (natToBits 8)).flatten ++
        ((data.drop 22).map (natToBits 8)).flatten.take 4 := by
    have hdecomp : bytesToBits data =
        ((data.take 22).map (natToBits 8)).flatten ++
          ((data.drop 22).map (natToBits 8)).flatten := by
      unfold bytesToBits
      rw [← List.flatten_append, ← List.map_append, List.take_append_drop]
    rw [hdecomp, List.take_append_eq_append_take, hlen176,
      List.take_of_length_le (by rw [hlen176]; norm_num)]
  rw [hsplit, chunks_flatten_append 8 (by norm_num) ((data.take 22).map (natToBits 8)) _
    (by
      intro g hg
      rcases List.mem_map.mp hg with ⟨v, _, rfl⟩
      exact natToBits_length 8 v)
    (lt_of_le_of_lt (List.length_take_le _ _) (by norm_num))]
  rw [List.map_map]
  conv_rhs => rw [← List.map_id (data.take 22)]
  apply List.map_congr_left
  intro x hx
  show bitsToNat (natToBits 8 x) = x
  rw [bitsToNat_natToBits]
  exact Nat.mod_eq_of_lt (by have := hb x (List.take_subset _ _ hx); omega)

theorem default_bytesToDots_length (data : List Nat) (hlen : data.length = 23) :
    (Encoder.bytesToDots DefaultConfig data).length = 60 := by
  unfold Encoder.bytesToDots
  rw [show DefaultConfig.BitsPerDot = 3 from rfl, show DefaultConfig.TotalDots = 60 from rfl,
    List.length_take, List.length_map, chunks_length 3 (by norm_num), bytesToBits_length,
    hlen]
  decide

/-- Decoding the dots of frame `i` of a default-configuration transfer of
payload `P` yields the header bytes `i`, `T` followed by the 20-byte
zero-padded chunk. -/
theorem default_frame_decode (P : List Nat) (hb : ∀ x ∈ P, x < 256)
    (T i : Nat) (hi : i < T) (hT : T ≤ 255) :
    Decoder.dotsToBytes DefaultConfig (Encoder.bytesToDots DefaultConfig
        (padTo (i :: T :: (P.drop (i * 20)).take 20) 23)) =
      i :: T :: padTo ((P.drop (i * 20)).take 20) 20 := by
  set chunk := (P.drop (i * 20)).take 20 with hchunk_def
  have hclen : chunk.length ≤ 20 := by
    rw [hchunk_def]
    exact List.length_take_le 20 _
  have hlen23 : (padTo (i :: T :: chunk) 23).length = 23 := by
    rw [padTo, List.length_append, List.length_replicate]
    simp only [List.length_cons]
    omega
  have hball : ∀ x ∈ padTo (i :: T :: chunk) 23, x < 256 := by
    intro x hx
    rw [padTo] at hx
    rcases List.mem_append.mp hx with hx | hx
    · rcases List.mem_cons.mp hx with rfl | hx
      · omega
      · rcases List.mem_cons.mp hx with rfl | hx
        · omega
        · refine hb x ?_
          rw [hchunk_def] at hx
          exact List.drop_subset _ _ (List.take_subset _ _ hx)
    · rw [List.eq_of_mem_replicate hx]
      omega
  rw [default_dots_roundtrip _ hlen23 hball]
  have hshape : padTo (i :: T :: chunk) 23 =
      i :: T :: (chunk ++ List.replicate (21 - chunk.length) 0) := by
    rw [padTo]
    simp only [List.length_cons, List.cons_append]
    rw [show 23 - (chunk.length + 1 + 1) = 21 - chunk.length from by omega]
  rw [hshape, show (22 : Nat) = 21 + 1 from rfl, List.take_succ_cons,
    show (21 : Nat) = 20 + 1 from rfl, List.take_succ_cons]
  congr 2
  rw [List.take_append_eq_append_take, List.take_of_length_le hclen, List.take_replicate,
    padTo, show (20 - chunk.length) ⊓ (21 - chunk.length) = 20 - chunk.length from by
      rw [inf_eq_min]; omega]

theorem flatten_range_padded (w : Nat) (hw : 0 < w) : ∀ (T : Nat) (P : List Nat),
    P.length ≤ T * w →
    ((List.range T).map fun i => padTo ((P.drop (i * w)).take w) w).flatten =
      P ++ List.replicate (T * w - P.length) 0 := by
  intro T
  induction T with
  | zero =>
    intro P hP
    have : P = [] := List.length_eq_zero.mp (by omega)
    subst this
    simp
  | succ T ih =>
    intro P hP
    have hsm := Nat.succ_mul T w
    have hsm2 : (T + 1) * w = T * w + w := by ring
    rw [List.range_succ_eq_map, List.map_cons, List.flatten_cons, List.map_map]
    have hcomp : ((fun i => padTo ((P.drop (i * w)).take w) w) ∘ Nat.succ) =
        fun i => padTo (((P.drop w).drop (i * w)).take w) w := by
      funext i
      simp only [Function.comp]
      rw [List.drop_drop]
      congr 3
      rw [Nat.succ_mul]
      omega
    rw [hcomp, ih (P.drop w) (by rw [List.length_drop]; omega), Nat.zero_mul,
      List.drop_zero, List.length_drop]
    by_cases hple : P.length ≤ w
    · rw [List.drop_eq_nil_of_le hple, List.take_of_length_le hple, padTo,
        List.nil_append, List.append_assoc, ← List.replicate_add]
      congr 2
      omega
    · have htk : (P.take w).length = w := by
        rw [List.length_take]
        omega
      rw [padTo, htk, Nat.sub_self, List.replicate_zero, List.append_nil,
        ← List.append_assoc, List.take_append_drop]
      congr 2
      omega

theorem default_frameBytes_length (P : List Nat) (T i : Nat) :
    (padTo (i :: T :: (P.drop (i * 20)).take 20) 23).length = 23 := by
  rw [padTo, List.length_append, List.length_replicate]
  simp only [List.length_cons]
  have := List.length_take_le 20 (P.drop (i * 20))
  omega

/-- After the first `k` frames of a `T`-frame default-configuration transfer
of payload `P` have been fed to the Go decoder, its state holds exactly the
padded chunks of those frames, `total = T` (0 before the first frame) and
`received = k`. -/
theorem c1_fold_invariant (P : List Nat) (hb : ∀ x ∈ P, x < 256)
    (T : Nat) (hT : T ≤ 255) :
    ∀ k, k ≤ T →
    ((List.range k).map fun i =>
        ({ Index := i, Total := T,
           Dots := Encoder.bytesToDots DefaultConfig
             (padTo (i :: T :: (P.drop (i * 20)).take 20) 23),
           Payload := (P.drop (i * 20)).take 20 } : Frame)).foldl
      (fun d fr => (Decoder.addFrame DefaultConfig d fr.Dots).1) Decoder.new =
    { frames := ((List.range k).map fun i =>
        (i, padTo ((P.drop (i * 20)).take 20) 20)).reverse,
      total := if k = 0 then 0 else T,
      received := k } := by
  intro k
  induction k with
  | zero =>
    intro _
    rfl
  | succ k ih =>
    intro hk
    have hk' : k < T := by omega
    rw [List.range_succ, List.map_append, List.foldl_append, ih (by omega)]
    simp only [List.map_cons, List.map_nil, List.foldl_cons, List.foldl_nil]
    unfold Decoder.addFrame
    rw [if_neg (by
      rw [default_bytesToDots_length _ (default_frameBytes_length P T k)]
      norm_num)]
    rw [default_frame_decode P hb T k hk' hT]
    dsimp only
    rw [if_neg (by omega : ¬ T = 0)]
    rw [lookup_rev_range (fun j => padTo ((P.drop (j * 20)).take 20) 20) k k,
      if_neg (lt_irrefl k)]
    rw [if_neg (by simp)]
    dsimp only
    rw [List.map_append, List.reverse_append]
    simp

/-- C1: for every nonempty byte payload of at most 5100 bytes, encoding with
the default configuration and feeding every resulting frame's dot values to
the Go decoder reassembles a buffer whose first `len P` bytes are exactly
`P` (the remainder being the final frame's zero padding). -/
theorem c1_encode_decode_roundtrip (P : List Nat) (hb : ∀ x ∈ P, x < 256)
    (h0 : 0 < P.length) (h5100 : P.length ≤ 5100) :
    ∃ out, Decoder.data ((Encoder.Encode DefaultConfig P).foldl
        (fun d fr => (Decoder.addFrame DefaultConfig d fr.Dots).1) Decoder.new) =
      some out ∧ out.take P.length = P := by
  have hdm := Nat.div_add_mod (P.length + 19) 20
  have hmod : (P.length + 19) % 20 < 20 := Nat.mod_lt _ (by norm_num)
  set T := (P.length + 19) / 20 with hT_def
  have h20T : T * 20 = 20 * T := by ring
  have hT255 : T ≤ 255 := by omega
  have hT0 : 0 < T := by omega
  have hPle : P.length ≤ T * 20 := by omega
  have hmin : min ((P.length + 19) / 20) 255 = T := Nat.min_eq_left hT255
  have hEnc : Encoder.Encode DefaultConfig P = (List.range T).map fun i =>
      ({ Index := i, Total := T,
         Dots := Encoder.bytesToDots DefaultConfig
           (padTo (i :: T :: (P.drop (i * 20)).take 20) 23),
         Payload := (P.drop (i * 20)).take 20 } : Frame) := by
    unfold Encoder.Encode
    dsimp only
    rw [if_neg (by decide : ¬ DefaultConfig.BytesPerFrame = 0)]
    simp only [show DefaultConfig.BytesPerFrame = 20 from by decide,
      show (DefaultConfig.BitsPerFrame + 7) / 8 = 23 from by decide,
      show P.length + 20 - 1 = P.length + 19 from by omega, hmin]
  rw [hEnc, c1_fold_invariant P hb T hT255 T (le_refl T)]
  unfold Decoder.data
  dsimp only
  rw [if_neg (by omega : ¬ T = 0)]
  rw [if_neg (lt_irrefl T)]
  rw [mapM_eq_some_map (List.range T) _
    (fun i => padTo ((P.drop (i * 20)).take 20) 20)
    (by
      intro i hi
      rw [lookup_rev_range (fun j => padTo ((P.drop (j * 20)).take 20) 20) T i,
        if_pos (List.mem_range.mp hi)])]
  refine ⟨((List.range T).map fun i => padTo ((P.drop (i * 20)).take 20) 20).flatten,
    rfl, ?_⟩
  rw [flatten_range_padded 20 (by norm_num) T P hPle]
  exact List.take_left P _

/-- Concrete instance of `c1_encode_decode_roundtrip`: the 2-byte payload
"hi" round-trips through one frame. -/
theorem c1_encode_decode_roundtrip_witness :
    ∃ out, Decoder.data ((Encoder.Encode DefaultConfig [104, 105]).foldl
        (fun d fr => (Decoder.addFrame DefaultConfig d fr.Dots).1) Decoder.new) =
      some out ∧ out.take 2 = [104, 105] :=
  c1_encode_decode_roundtrip [104, 105] (by decide) (by decide) (by decide)
